import Mathlib

/-!
Verification of the systolic-array FPGA lowerings in
`daceml/onnx/op_implementations/fpga_implementations.py`: processing-element
count selection, tile sizing, the construction-time deadlock check, the cycle
budget of the compute-and-drain pipeline, the operand feeders, the output
collector, and the trailing drain counters.  Machine integers in the source
are Python ints of unbounded size; sizes and loop indices are nonnegative, so
they are modelled as `Nat` (coordinates that can go negative use `Int`).
-/

namespace FpgaSystolic

/-- Processing-element count selection of the tiled im2col convolution
(`FPGAIm2ColConv_tiled.forward`, lines 1078-1090 and 1228-1231).  A caller
value of `none` or `some 0` is "not supplied" (Python `not pe`) and defaults
to the filter count.  A count above `K = filter_hx * filter_hy * num_channels`
is clamped to `max (K - 1) 1` (line 1085); only afterwards is the
`ValueError` check `P > K` (line 1228) evaluated. -/
def tiledConvSelectP (pe : Option Nat) (numFilters numChannels fhx fhy : Nat) :
    Except String Nat :=
  let P0 := match pe with
    | none => numFilters
    | some p => if p = 0 then numFilters else p
  let P1 := if fhx * fhy * numChannels < P0 then max (fhx * fhy * numChannels - 1) 1 else P0
  if fhx * fhy * numChannels < P1 then
    Except.error "Conv Im2Col (tiled): number of processing elements must be smaller than the K-dimension"
  else
    Except.ok P1

/-- Cycle budget of one constructed compute-and-drain pipeline, as declared by
the `add_pipeline` call: the per-tile iteration count of the flattened
`k, m` ranges, the drain tail, and the total number of pipeline cycles. -/
structure PipelineDesc where
  perTileCycles : Nat
  drainSize : Nat
  totalCycles : Nat
deriving DecidableEq

/-- Construction of the systolic compute-and-drain pipeline with its validity
check (`FPGAMatMul.forward`, `assert K <= P*T` at lines 3412-3418, pipeline
scope at lines 3572-3589 with ranges `b: 0:BATCH, n0: 0:N/P, tm: 0:M/T,
k: 0:K, m: 0:T+L` and `drain_size = P*T` appended once after the loop nest;
`FPGAIm2ColConv_tiled.forward.make_compute`, lines 1978-1992, declares the
same shape with the tile width counted in vector units).  `T` here is in
vector units. -/
def pipelineConstruct (BATCH N M K P T L : Nat) : Except String PipelineDesc :=
  if K ≤ P * T then
    Except.ok
      { perTileCycles := K * (T + L)
        drainSize := P * T
        totalCycles := BATCH * (N / P) * (M / T) * (K * (T + L)) + P * T }
  else
    Except.error "AssertionError: K <= P*T"

/-- Automatic PE count of the batched 3-D by 3-D `FPGAMatMul` lowering
(lines 3404-3407): `gcd` with the hardware ceiling 16, then reduced to divide
`K`. -/
def matmulAutoP (N K : Nat) : Nat := Nat.gcd K (Nat.gcd N 16)

/-- Automatic PE count of the 3-D by 2-D `FPGAMatMul` lowering, which collates
the batch and row axes (lines 3855-3859). -/
def matmulCollatedAutoP (BATCH N K : Nat) : Nat := Nat.gcd K (Nat.gcd (N * BATCH) 16)

/-- Automatic PE count of the `FPGAGemm` lowering (line 2660): `gcd` with the
hardware ceiling only; it is never further reduced to divide `K`. -/
def gemmAutoP (N : Nat) : Nat := Nat.gcd N 16

/-- Automatic PE count of the plain im2col convolution lowering
(`FPGAIm2ColConv.forward`, lines 480-483): the filter count, with no `gcd`
at all (the `gcd` variant at line 486 is commented out). -/
def im2colConvAutoP (numFilters : Nat) : Nat := numFilters

/-- Automatic PE count of the tiled im2col convolution lowering
(lines 1078-1085): the filter count, clamped to `max (K - 1) 1` when above
`K`. -/
def tiledConvAutoP (numFilters K : Nat) : Nat :=
  if K < numFilters then max (K - 1) 1 else numFilters

/-- Tile-width selection of the tiled im2col convolution
(`FPGAIm2ColConv_tiled.forward`, lines 1096-1106).  The `tiles` argument
defaults to 256 when the caller supplies none; the width starts from
`min tiles M`, is raised to the output vector width when below it, and is
replaced by the least common multiple with the vector width when not a
multiple of it. -/
def tiledConvTileSize (tiles : Option Nat) (M veclen : Nat) : Nat :=
  let t0 := min (tiles.getD 256) M
  let t1 := if t0 < veclen then veclen else t0
  if t1 % veclen = 0 then t1 else Nat.lcm t1 veclen

/-- Helper: a dividend below its divisor times the bound stays below the
product. -/
lemma mul_add_lt_mul {i j a m : Nat} (hi : i < a) (hj : j < m) :
    i * m + j < a * m := by
  have h1 : i * m + j < (i + 1) * m := by
    rw [Nat.succ_mul]
    omega
  exact Nat.lt_of_lt_of_le h1 (Nat.mul_le_mul_right m hi)

/-- Helper: `lcm n v = n` when `v` divides a positive-or-zero `n` (both
directions of divisibility). -/
lemma lcm_eq_self_of_dvd {n v : Nat} (h : v ∣ n) : Nat.lcm n v = n :=
  Nat.dvd_antisymm (Nat.lcm_dvd dvd_rfl h) (Nat.dvd_lcm_left n v)

/-- C1.  The claim says a caller-supplied `P > K` is rejected at construction
time with a `ConfigurationInvalid` error.  At `P = 5`, `K = 1*2*2 = 4` the
tiled lowering instead clamps to `max (K-1) 1 = 3` and accepts: construction
returns `ok 3` and never an error. -/
theorem tiledConvSelectP_claim_false :
    tiledConvSelectP (some 5) 8 1 2 2 = Except.ok 3 ∧
    (tiledConvSelectP (some 5) 8 1 2 2).toOption = some 3 :=
  ⟨rfl, rfl⟩

/-- C1 (amended).  A caller-supplied `P` with `1 ≤ P ≤ K` is accepted
unchanged; a caller-supplied `P > K` (for `K ≥ 1`) is never rejected with an
error: it is clamped to `max (K - 1) 1` and construction proceeds, so the
`P > K` `ValueError` is unreachable for caller-supplied counts. -/
theorem tiledConvSelectP_amended (nf ch fx fy p : Nat) (hp : 1 ≤ p) :
    (p ≤ fx * fy * ch → tiledConvSelectP (some p) nf ch fx fy = Except.ok p) ∧
    (1 ≤ fx * fy * ch → fx * fy * ch < p →
      tiledConvSelectP (some p) nf ch fx fy = Except.ok (max (fx * fy * ch - 1) 1)) := by
  have hp0 : p ≠ 0 := by omega
  unfold tiledConvSelectP
  simp only [if_neg hp0]
  constructor
  · intro hK
    simp only [if_neg (show ¬ fx * fy * ch < p by omega)]
  · intro hK1 hKp
    simp only [if_pos hKp,
      if_neg (show ¬ fx * fy * ch < max (fx * fy * ch - 1) 1 by omega)]

/-- C1 witness: `P = 3 ≤ K = 4` is accepted unchanged. -/
theorem tiledConvSelectP_amended_witness :
    tiledConvSelectP (some 3) 8 1 2 2 = Except.ok 3 :=
  (tiledConvSelectP_amended 8 1 2 2 3 (by decide)).1 (by decide)

/-- C2.  For every configuration with `K ≤ P·T` the construction-time check
passes (no `ConfigurationInvalid`), and the constructed pipeline spends
`K·(T+L)` cycles per tile with a drain tail of `P·T` cycles; the total cycle
count contains the `P·T` drain only once, after all tiles — every earlier
tile's drain happens inside the `K·(T+L)` cycles of the next tile. -/
theorem pipelineConstruct_valid (BATCH N M K P T L : Nat) (h : K ≤ P * T) :
    pipelineConstruct BATCH N M K P T L =
      Except.ok
        { perTileCycles := K * (T + L)
          drainSize := P * T
          totalCycles := BATCH * (N / P) * (M / T) * (K * (T + L)) + P * T } ∧
    ∀ d, pipelineConstruct BATCH N M K P T L = Except.ok d →
      d.totalCycles = BATCH * (N / P) * (M / T) * d.perTileCycles + d.drainSize := by
  unfold pipelineConstruct
  rw [if_pos h]
  refine ⟨rfl, fun d hd => ?_⟩
  cases hd
  rfl

/-- C2 witness at `BATCH=2, N=4, M=8, K=4, P=2, T=8, L=3` (so `K ≤ P·T`). -/
theorem pipelineConstruct_valid_witness :
    pipelineConstruct 2 4 8 4 2 8 3 =
      Except.ok
        { perTileCycles := 4 * (8 + 3)
          drainSize := 2 * 8
          totalCycles := 2 * (4 / 2) * (8 / 8) * (4 * (8 + 3)) + 2 * 8 } :=
  (pipelineConstruct_valid 2 4 8 4 2 8 3 (by decide)).1

/-- C3.  The claim says the automatically derived PE count divides `K` in
every lowering.  `FPGAGemm` derives `P = gcd(N,16)` with no reduction: at
`N = 16, K = 3` it picks `P = 16`, which does not divide 3. -/
theorem gemmAutoP_not_dvd : gemmAutoP 16 = 16 ∧ ¬ (gemmAutoP 16 ∣ 3) := by
  decide

/-- C3 (amended).  In the two `FPGAMatMul` lowerings the automatic PE count is
`gcd(K, gcd(N,16))` (batched) respectively `gcd(K, gcd(N·BATCH,16))`
(batch/row collated) and always divides `K`; `FPGAGemm` stops at `gcd(N,16)`
and the convolution lowerings use the filter count, so those need not
divide `K`. -/
theorem autoP_divides_matmul (N K BATCH : Nat) :
    matmulAutoP N K ∣ K ∧ matmulCollatedAutoP BATCH N K ∣ K :=
  ⟨Nat.gcd_dvd_left K (Nat.gcd N 16), Nat.gcd_dvd_left K (Nat.gcd (N * BATCH) 16)⟩

/-- C4.  The claim says the tile width defaults to `M` when the caller
supplies no tile size.  At `M = 512` (vector width 1) the default is
`min 256 512 = 256`, not `M`. -/
theorem tileSize_claim_false :
    tiledConvTileSize none 512 1 = 256 ∧ tiledConvTileSize none 512 1 ≠ 512 := by
  decide

/-- C4 (amended).  With no caller tile size the width is
`lcm (max (min 256 M) v) v`: it starts from `min 256 M` (the full output
width only when `M ≤ 256`), is raised to the vector width when below it, and
is rounded to the least common multiple with the vector width when not a
multiple of it; in particular it equals `M` whenever `M ≤ 256`, `M > 0` and
the vector width divides `M`. -/
theorem tileSize_amended (M v : Nat) (hv : 0 < v) :
    tiledConvTileSize none M v = Nat.lcm (max (min 256 M) v) v ∧
    (M ≤ 256 → v ∣ M → 0 < M → tiledConvTileSize none M v = M) := by
  constructor
  · unfold tiledConvTileSize
    simp only [Option.getD]
    by_cases h1 : min 256 M < v
    · rw [if_pos h1, Nat.mod_self, if_pos rfl, Nat.max_eq_right (Nat.le_of_lt h1),
        Nat.lcm_self]
    · rw [if_neg h1, Nat.max_eq_left (Nat.le_of_not_lt h1)]
      by_cases h2 : min 256 M % v = 0
      · rw [if_pos h2, lcm_eq_self_of_dvd (Nat.dvd_of_mod_eq_zero h2)]
      · rw [if_neg h2]
  · intro hM hd h0
    unfold tiledConvTileSize
    simp only [Option.getD]
    have hmin : min 256 M = M := min_eq_right hM
    have hvM : v ≤ M := Nat.le_of_dvd h0 hd
    rw [hmin, if_neg (show ¬ M < v by omega), if_pos (Nat.mod_eq_zero_of_dvd hd)]

/-- C4 witness at `M = 512`, vector width 4: the default tile width is 256. -/
theorem tileSize_amended_witness :
    tiledConvTileSize none 512 4 = Nat.lcm (max (min 256 512) 4) 4 :=
  (tileSize_amended 512 4 (by decide)).1

/-- Accumulator value produced by one cycle of the compute-and-drain tasklet
(`FPGAIm2ColConv_tiled.forward.make_compute`, lines 2078-2082; the plain conv
tasklet at lines 788-791 is identical): `result` is preset to the buffered
value `cIn` and overwritten by the multiply-accumulate only in a compute
cycle, i.e. when `m ≥ L` and the pipeline is not in its terminal drain
phase.  A `k = 0` cycle restarts the accumulation from zero
(`c_init_data`). -/
def peResult (L m k : Nat) (drain : Bool) (aIn bIn cIn : Int) : Int :=
  if L ≤ m ∧ drain = false then (if k = 0 then 0 else cIn) + aIn * bIn else cIn

/-- Write-back of the accumulator slot (`c_out`, line 2082): issued exactly in
compute cycles. -/
def peCOut (L m k : Nat) (drain : Bool) (aIn bIn cIn : Int) : Option Int :=
  if L ≤ m ∧ drain = false then some (peResult L m k drain aIn bIn cIn) else none

/-- Forwarding of the moving operand to the next chain position (`b_out`,
lines 2083-2084): issued in compute cycles by every PE except the last
(`p < P - 1`). -/
def peBOut (P L p m : Nat) (drain : Bool) (bIn : Int) : Option Int :=
  if (L ≤ m ∧ drain = false) ∧ p < P - 1 then some bIn else none

/-- Condition under which a PE writes to the result channel (line 2093):
a pending drain debt from an earlier tile, the end of its own contraction,
or relaying during the terminal drain phase. -/
def peEmitCond (P K L Tv p b n0 tm k m kd md : Nat) (drain : Bool) : Prop :=
  ((0 < b ∨ 0 < n0 ∨ 0 < tm) ∧ kd < p ∧ md < Tv) ∨
  (k = K - 1 ∧ L ≤ m) ∨
  (drain = true ∧ kd < p)

instance (P K L Tv p b n0 tm k m kd md : Nat) (drain : Bool) :
    Decidable (peEmitCond P K L Tv p b n0 tm k m kd md drain) := by
  unfold peEmitCond
  infer_instance

/-- Value written to the result channel (`c_pipe_out`, line 2094): the PE's
own result when it is at chain position 0 or its drain counter has reached
the last contraction step outside the terminal drain phase; otherwise the
value relayed from the previous PE. -/
def pePipeOut (P K L Tv p b n0 tm k m kd md : Nat) (drain : Bool)
    (aIn bIn cIn forwardIn : Int) : Option Int :=
  if peEmitCond P K L Tv p b n0 tm k m kd md drain then
    some (if p = 0 ∨ (kd = K - 1 ∧ drain = false)
      then peResult L m k drain aIn bIn cIn else forwardIn)
  else none

/-- Bias contribution of the output collector: the bias entry of the output
channel when a bias operand is present, zero otherwise. -/
def biasVal (bias : Option (Nat → Int)) (outFilter : Nat) : Int :=
  match bias with
  | some f => f outFilter
  | none => 0

/-- Destination coordinates of one output-collector write
(`FPGAIm2ColConv_tiled.forward.make_write_C`, lines 1902-1908). -/
structure WriteCAccess where
  b : Nat
  outFilter : Nat
  outY : Nat
  outX : Nat
deriving DecidableEq

/-- Output collector (`make_write_C`, lines 1888-1930): a drained value is
written, plus the bias of its output channel when present, to
`Y[b, n0*P + n1, matrix_col / osx, (matrix_col % osx) / vw]` where
`matrix_col = tm*T + m*vw`; the guarded tasklet issues no write when
`matrix_col ≥ M` or the row `n0*P + n1 ≥ N`. -/
def writeC (P T vw osx M N : Nat) (bias : Option (Nat → Int))
    (b n0 tm n1 m : Nat) (fromKernel : Int) : Option (WriteCAccess × Int) :=
  if tm * T + m * vw < M ∧ n0 * P + n1 < N then
    some
      ({ b := b
         outFilter := n0 * P + n1
         outY := (tm * T + m * vw) / osx
         outX := ((tm * T + m * vw) % osx) / vw },
        fromKernel + biasVal bias (n0 * P + n1))
  else none

/-- C6.  In every pipeline cycle with `m ≥ L` that is not in the drain phase,
the PE at chain position `p` writes back
`(k == 0 ? 0 : cIn) + stationary * moving` to its accumulator slot, and
forwards the moving value to position `p+1` exactly when `p` is not the last
chain position. -/
theorem computePhase_update (P L p m k : Nat) (drain : Bool)
    (aIn bIn cIn : Int) (hm : L ≤ m) (hd : drain = false) (hp : p < P) :
    peCOut L m k drain aIn bIn cIn =
      some ((if k = 0 then 0 else cIn) + aIn * bIn) ∧
    peBOut P L p m drain bIn = (if p ≠ P - 1 then some bIn else none) := by
  constructor
  · unfold peCOut peResult
    rw [if_pos ⟨hm, hd⟩, if_pos ⟨hm, hd⟩]
  · unfold peBOut
    by_cases hlast : p = P - 1
    · rw [if_neg (by omega), if_neg (by simpa using hlast)]
    · rw [if_pos ⟨⟨hm, hd⟩, by omega⟩, if_pos hlast]

/-- C6 witness at `P = 2, L = 1, p = 0, m = 3, k = 0`, operands 2, 3 and
buffered value 7. -/
theorem computePhase_update_witness :
    peCOut 1 3 0 false 2 3 7 = some ((if (0 : Nat) = 0 then 0 else 7) + 2 * 3) ∧
    peBOut 2 1 0 3 false 3 = (if (0 : Nat) ≠ 2 - 1 then some 3 else none) :=
  computePhase_update 2 1 0 3 0 false 2 3 7 (by decide) rfl (by decide)

/-- C7.  In every emitting cycle the PE at chain position `p` sends its own
result exactly when `p = 0`, or its drain counter equals `K - 1` and the
pipeline is not in the terminal drain phase; in every other emitting cycle
it relays the value arriving from position `p - 1` unchanged. -/
theorem drainEmit_select (P K L Tv p b n0 tm k m kd md : Nat) (drain : Bool)
    (aIn bIn cIn forwardIn : Int)
    (he : peEmitCond P K L Tv p b n0 tm k m kd md drain) :
    (p = 0 ∨ (kd = K - 1 ∧ drain = false) →
      pePipeOut P K L Tv p b n0 tm k m kd md drain aIn bIn cIn forwardIn =
        some (peResult L m k drain aIn bIn cIn)) ∧
    (¬(p = 0 ∨ (kd = K - 1 ∧ drain = false)) →
      pePipeOut P K L Tv p b n0 tm k m kd md drain aIn bIn cIn forwardIn =
        some forwardIn) := by
  unfold pePipeOut
  rw [if_pos he]
  exact ⟨fun hown => by rw [if_pos hown], fun hrelay => by rw [if_neg hrelay]⟩

/-- C7 witness: `P = 2, K = 2, p = 1, k = K - 1, m = 0 ≥ L = 0` outside the
drain phase, with the drain counter caught up (`kd = 1 = K - 1`): the PE
emits its own result. -/
theorem drainEmit_select_witness :
    pePipeOut 2 2 0 4 1 0 0 0 1 0 1 0 false 2 3 7 11 =
      some (peResult 0 0 1 false 2 3 7) :=
  (drainEmit_select 2 2 0 4 1 0 0 0 1 0 1 0 false 2 3 7 11
    (Or.inr (Or.inl ⟨rfl, Nat.zero_le 0⟩))).1 (Or.inr ⟨rfl, rfl⟩)

/-- C9.  Every in-bounds drained value is written, plus the bias of its
output channel when present, at row `n0*P + n1`; the written `(outY, outX)`
pair recombines (`outY*osx + outX*vw`) to the matrix column
`tm*T + m*vw` — the column tile base plus the tile offset scaled by the
vector width — and no write is issued when the column or the row falls
outside the output extent. -/
theorem writeC_coords (P T vw osx M N : Nat) (bias : Option (Nat → Int))
    (b n0 tm n1 m : Nat) (fromKernel : Int)
    (hT : osx ∣ T) (hvo : vw ∣ osx) :
    (tm * T + m * vw < M → n0 * P + n1 < N →
      writeC P T vw osx M N bias b n0 tm n1 m fromKernel =
        some
          ({ b := b
             outFilter := n0 * P + n1
             outY := (tm * T + m * vw) / osx
             outX := ((tm * T + m * vw) % osx) / vw },
            fromKernel + biasVal bias (n0 * P + n1)) ∧
      ((tm * T + m * vw) / osx) * osx + (((tm * T + m * vw) % osx) / vw) * vw =
        tm * T + m * vw) ∧
    (M ≤ tm * T + m * vw ∨ N ≤ n0 * P + n1 →
      writeC P T vw osx M N bias b n0 tm n1 m fromKernel = none) := by
  constructor
  · intro hcol hrow
    refine ⟨by unfold writeC; rw [if_pos ⟨hcol, hrow⟩], ?_⟩
    have hmc : vw ∣ tm * T + m * vw :=
      dvd_add (Dvd.dvd.mul_left (dvd_trans hvo hT) tm) (Dvd.dvd.mul_left dvd_rfl m)
    have hmod : vw ∣ (tm * T + m * vw) % osx := (Nat.dvd_mod_iff hvo).mpr hmc
    rw [Nat.div_mul_cancel hmod, Nat.mul_comm, Nat.div_add_mod]
  · intro hoob
    unfold writeC
    rw [if_neg (by omega)]

/-- C9 witness at `P=2, T=8, vw=2, osx=4, M=16, N=4`, no bias, iteration
`(b,n0,tm,n1,m) = (0,1,1,0,2)` (matrix column 12, row 2). -/
theorem writeC_coords_witness :
    writeC 2 8 2 4 16 4 none 0 1 1 0 2 5 =
      some
        ({ b := 0
           outFilter := 1 * 2 + 0
           outY := (1 * 8 + 2 * 2) / 4
           outX := ((1 * 8 + 2 * 2) % 4) / 2 },
          5 + biasVal none (1 * 2 + 0)) ∧
    ((1 * 8 + 2 * 2) / 4) * 4 + (((1 * 8 + 2 * 2) % 4) / 2) * 2 =
      1 * 8 + 2 * 2 :=
  (writeC_coords 2 8 2 4 16 4 none 0 1 1 0 2 5 (by decide) (by decide)).1
    (by decide) (by decide)

/-- Value emitted by one iteration of the tiled stationary-operand feeder
(`FPGAIm2ColConv_tiled.forward.make_read_A`, lines 1257-1276): the read_A
tasklet streams `W[filter, in_channel, hy, hx]` with
`filter = n0*P + n1`, `in_channel = k / (fhx*fhy)`,
`hy = (k % (fhx*fhy)) / fhx`, `hx = (k % (fhx*fhy)) % fhx`,
substituting zero for the out-of-range rows `n0*P + n1 ≥ N`. -/
def readAEmit (P N fhx fhy : Nat) (W : Nat → Nat → Nat → Nat → Int)
    (n0 k n1 : Nat) : Int :=
  if n0 * P + n1 < N then
    W (n0 * P + n1) (k / (fhx * fhy)) ((k % (fhx * fhy)) / fhx)
      ((k % (fhx * fhy)) % fhx)
  else 0

/-- Emission sequence of the tiled stationary-operand feeder: the flattened
`read_A` map (lines 1240-1247) iterates
`b : batch, n0 : NB, tm : TM, k : K, n1 : P` in that nesting order, one
emission per cycle. -/
def readAStream (batch NB TM K P N fhx fhy : Nat)
    (W : Nat → Nat → Nat → Nat → Int) : List Int :=
  (List.range batch).flatMap fun _b =>
    (List.range NB).flatMap fun n0 =>
      (List.range TM).flatMap fun _tm =>
        (List.range K).flatMap fun k =>
          (List.range P).map fun n1 => readAEmit P N fhx fhy W n0 k n1

/-- Helper: length of a flatMap over a range with blocks of constant
length. -/
lemma range_flatMap_length {α : Type} (n m : Nat) (f : Nat → List α)
    (h : ∀ x, (f x).length = m) :
    ((List.range n).flatMap f).length = n * m := by
  induction n with
  | zero => simp
  | succ n ih =>
    rw [List.range_succ, List.flatMap_append, List.length_append, ih]
    simp [h, Nat.succ_mul]

/-- Helper: indexing into a flatMap over a range with blocks of constant
length. -/
lemma range_flatMap_get {α : Type} (n m : Nat) (f : Nat → List α)
    (h : ∀ x, (f x).length = m) (i j : Nat) (hi : i < n) (hj : j < m) :
    ((List.range n).flatMap f).get? (i * m + j) = (f i).get? j := by
  induction n with
  | zero => omega
  | succ n ih =>
    rw [List.range_succ, List.flatMap_append]
    by_cases hin : i < n
    · rw [List.get?_append]
      · exact ih hin
      · rw [range_flatMap_length n m f h]
        exact mul_add_lt_mul hin hj
    · have hieq : i = n := by omega
      subst hieq
      rw [List.get?_append_right (by rw [range_flatMap_length i m f h]; omega)]
      rw [range_flatMap_length i m f h]
      simp only [List.flatMap_cons, List.flatMap_nil, List.append_nil,
        Nat.add_sub_cancel_left]

/-- C8.  The tiled stationary feeder emits in strict nested
`(b, n0, tm, k, n1)` order: the emission at flattened cycle
`(((b*NB + n0)*TM + tm)*K + k)*P + n1` is the weight value at filter
`n0*P + n1` and at the decomposition of `k` into
`(channel, kernel-row, kernel-col) =
(k / (Hx*Hy), (k % (Hx*Hy)) / Hx, (k % (Hx*Hy)) % Hx)`; the value does not
depend on the tile index `tm`, so the full weight block is re-sent once per
output-column tile. -/
theorem readA_order (batch NB TM K P N fhx fhy : Nat)
    (W : Nat → Nat → Nat → Nat → Int) (b n0 tm k n1 : Nat)
    (hb : b < batch) (hn0 : n0 < NB) (htm : tm < TM) (hk : k < K)
    (hn1 : n1 < P) (hN : n0 * P + n1 < N) :
    (readAStream batch NB TM K P N fhx fhy W).get?
        ((((b * NB + n0) * TM + tm) * K + k) * P + n1) =
      some (W (n0 * P + n1) (k / (fhx * fhy)) ((k % (fhx * fhy)) / fhx)
        ((k % (fhx * fhy)) % fhx)) := by
  have hlen1 : ∀ x : Nat, ((List.range K).flatMap fun kk =>
      (List.range P).map fun nn => readAEmit P N fhx fhy W x kk nn).length
        = K * P := fun x =>
    range_flatMap_length K P _ (fun _ => by simp)
  have hlen2 : ∀ x : Nat, ((List.range TM).flatMap fun _tm =>
      (List.range K).flatMap fun kk =>
        (List.range P).map fun nn => readAEmit P N fhx fhy W x kk nn).length
        = TM * (K * P) := fun x =>
    range_flatMap_length TM (K * P) _ (fun _ => hlen1 x)
  have hlen3 : ∀ x : Nat, ((List.range NB).flatMap fun n00 =>
      (List.range TM).flatMap fun _tm =>
        (List.range K).flatMap fun kk =>
          (List.range P).map fun nn =>
            readAEmit P N fhx fhy W n00 kk nn).length = NB * (TM * (K * P)) :=
    fun _x => range_flatMap_length NB (TM * (K * P)) _ hlen2
  have hidx : (((b * NB + n0) * TM + tm) * K + k) * P + n1 =
      b * (NB * (TM * (K * P))) +
        (n0 * (TM * (K * P)) + (tm * (K * P) + (k * P + n1))) := by ring
  rw [readAStream, hidx]
  rw [range_flatMap_get batch (NB * (TM * (K * P))) _ (fun _ => hlen3 0) b _ hb
    (mul_add_lt_mul hn0 (mul_add_lt_mul htm (mul_add_lt_mul hk hn1)))]
  rw [range_flatMap_get NB (TM * (K * P)) _ hlen2 n0 _ hn0
    (mul_add_lt_mul htm (mul_add_lt_mul hk hn1))]
  rw [range_flatMap_get TM (K * P) _ (fun _ => hlen1 n0) tm _ htm
    (mul_add_lt_mul hk hn1)]
  rw [range_flatMap_get K P _ (fun _ => by simp) k _ hk hn1]
  rw [List.get?_map, List.get?_range hn1]
  simp only [Option.map_some', readAEmit, if_pos hN]

/-- Concrete weight tensor used by the C8 witness: the value encodes its four
indices in decimal digits. -/
def witnessW (a c r s : Nat) : Int :=
  ((a * 10 + c) * 10 + r) * 10 + s

/-- C8 witness: one batch, one row block, two tiles, `K = 4` (one channel of
a 2x2 filter), two PEs; at `(b,n0,tm,k,n1) = (0,0,1,2,1)`, flattened cycle
13, the stream holds the weight at filter 1, channel 0, kernel-row 1,
kernel-col 0. -/
theorem readA_order_witness :
    (readAStream 1 1 2 4 2 2 2 2 witnessW).get?
        ((((0 * 1 + 0) * 2 + 1) * 4 + 2) * 2 + 1) =
      some (witnessW (0 * 2 + 1) (2 / (2 * 2)) ((2 % (2 * 2)) / 2)
        ((2 % (2 * 2)) % 2)) :=
  readA_order 1 1 2 4 2 2 2 2 witnessW 0 0 1 2 1
    (by decide) (by decide) (by decide) (by decide) (by decide) (by decide)

/-- Row coordinate of the X access issued by the tiled moving-operand feeder
(`FPGAIm2ColConv_tiled.forward.make_read_B`, lines 1356-1378): the memlet
`access_vec = [b, channel, access_y, ...]` uses
`access_y = (tm*T + m0*vw) / osx + (k % (fhx*fhy)) / fhx`, the output-pixel
row plus the kernel row offset; the used access does not subtract the
padding (only the unused `access` string at line 1375 does). -/
def tiledReadBAccessY (T vw osx fhx fhy tm k m0 : Nat) : Nat :=
  (tm * T + m0 * vw) / osx + (k % (fhx * fhy)) / fhx

/-- Guard under which the tiled feeder issues its global-memory read
(`read_global` tasklet, lines 1424-1440): only the tile bound
`tm*T + m < M` is tested; the padding tests built at lines 1410-1414 are
never connected to any tasklet. -/
def tiledReadBIssuesRead (T vw M tm m0 : Nat) : Bool :=
  decide (tm * T + m0 * vw < M)

/-- C5 (code evaluation at the failing input).  Spec test instance: one
channel, 3x3 kernel, stride 1, same padding 1, 4x4 input, so the output is
4x4, `M = 16`, the default tile width is `T = min 256 16 = 16`, vector
width 1, `K = 9`.  At feeder iteration `tm = 0, k = 8, m0 = 15` the guard
passes — a global read IS issued — and the accessed row is `3 + 2 = 5`,
outside the 4-row input extent (still outside it, row 4, even after the
padding subtraction the spec prescribes); no zero is substituted. -/
theorem tiledReadB_oob_read :
    tiledConvTileSize none 16 1 = 16 ∧
    tiledReadBIssuesRead 16 1 16 0 15 = true ∧
    tiledReadBAccessY 16 1 4 3 3 0 8 15 = 5 ∧
    ¬ (tiledReadBAccessY 16 1 4 3 3 0 8 15 < 4) ∧
    ¬ (tiledReadBAccessY 16 1 4 3 3 0 8 15 - 1 < 4) := by
  decide

/-- One update of the trailing drain counters `(k_drain, m_drain)` against a
row length `a` (the compute-and-drain tasklet, lines 2097-2104 and 2106-2113
of the tiled conv; lines 806-813 and 815-822 of the plain conv are the same
with the row length `M`): when `m_drain` has walked a full row it wraps to
zero and `k_drain` advances, itself wrapping from `K - 1` to zero; otherwise
`m_drain` increments. -/
def wrapAdvance (K a : Nat) (s : Nat × Nat) : Nat × Nat :=
  if a - 1 ≤ s.2 then (if K - 1 ≤ s.1 then 0 else s.1 + 1, 0) else (s.1, s.2 + 1)

/-- One cycle of the drain-counter update (lines 2096-2113): outside the
terminal drain phase the row length carries the extra `L`-cycle allowance
(`L + Tv`), inside it the row length is the tile width `Tv` in vector
units. -/
def drainStep (K L Tv : Nat) (drain : Bool) (s : Nat × Nat) : Nat × Nat :=
  if drain then wrapAdvance K Tv s else wrapAdvance K (L + Tv) s

/-- Drain-counter trajectory of one pipeline run: both counters start at zero
(`additional_iterators`, lines 1988-1991), the update runs every cycle, and
the pipeline is in its terminal drain phase from cycle `Nmain` (the length of
the flattened main loop nest) onwards. -/
def drainTraj (K L Tv Nmain : Nat) : Nat → Nat × Nat
  | 0 => (0, 0)
  | c + 1 => drainStep K L Tv (decide (Nmain ≤ c)) (drainTraj K L Tv Nmain c)

/-- Helper: the successor of the counter value `x % K`, with the wrap
condition written the way the tasklet writes it. -/
lemma wrap_succ_mod (K x : Nat) (hK : 1 ≤ K) :
    (if K - 1 ≤ x % K then 0 else x % K + 1) = (x + 1) % K := by
  have hx : x % K < K := Nat.mod_lt x hK
  have hsucc : (x + 1) % K = (x % K + 1) % K := by
    conv_lhs => rw [Nat.add_mod]
    rcases Nat.lt_or_ge 1 K with h1 | h1
    · rw [Nat.mod_eq_of_lt h1]
    · have hK1 : K = 1 := by omega
      subst hK1
      simp
  by_cases hwrap : K - 1 ≤ x % K
  · rw [if_pos hwrap, hsucc, show x % K + 1 = K by omega, Nat.mod_self]
  · rw [if_neg hwrap, hsucc]
    exact (Nat.mod_eq_of_lt (by omega)).symm

/-- Helper: one `wrapAdvance` step maps the closed form at cycle `c` to the
closed form at cycle `c + 1`. -/
lemma wrapAdvance_closed (K a c : Nat) (hK : 1 ≤ K) (ha : 1 ≤ a) :
    wrapAdvance K a ((c / a) % K, c % a) = (((c + 1) / a) % K, (c + 1) % a) := by
  have hca : c % a < a := Nat.mod_lt c ha
  have hdm : a * (c / a) + c % a = c := Nat.div_add_mod c a
  by_cases hend : a - 1 ≤ c % a
  · have hr : c % a = a - 1 := by omega
    have hmul : a * (c / a + 1) = a * (c / a) + a := Nat.mul_succ a (c / a)
    have hc1 : c + 1 = a * (c / a + 1) := by omega
    have hdiv : (c + 1) / a = c / a + 1 := by
      rw [hc1, Nat.mul_div_cancel_left _ (by omega : 0 < a)]
    have hmod : (c + 1) % a = 0 := by
      rw [hc1, Nat.mul_mod_right]
    rw [wrapAdvance, if_pos (by simpa using hend), hdiv, hmod]
    exact congrArg (fun z => (z, 0)) (wrap_succ_mod K (c / a) hK)
  · have hc1 : c + 1 = (c % a + 1) + a * (c / a) := by omega
    have hdiv : (c + 1) / a = c / a := by
      rw [hc1, Nat.add_mul_div_left _ _ (by omega : 0 < a),
        Nat.div_eq_of_lt (by omega), Nat.zero_add]
    have hmod : (c + 1) % a = c % a + 1 := by
      rw [hc1, Nat.add_mul_mod_self_left, Nat.mod_eq_of_lt (by omega)]
    rw [wrapAdvance, if_neg (by simpa using hend), hdiv, hmod]

/-- Helper: closed form of the drain counters during the main phase
(`c ≤ Nmain`): `m_drain` cycles through `0 .. L+Tv-1` and `k_drain` counts
the completed rows modulo `K`. -/
lemma drainTraj_main (K L Tv Nmain : Nat) (hK : 1 ≤ K) (hT : 1 ≤ Tv)
    (c : Nat) (hc : c ≤ Nmain) :
    drainTraj K L Tv Nmain c = ((c / (L + Tv)) % K, c % (L + Tv)) := by
  induction c with
  | zero => simp [drainTraj]
  | succ c ih =>
    rw [drainTraj, decide_eq_false (by omega : ¬ Nmain ≤ c), ih (by omega)]
    show wrapAdvance K (L + Tv) _ = _
    exact wrapAdvance_closed K (L + Tv) c hK (by omega)

/-- Helper: closed form of the drain counters during the terminal drain phase
(`d` cycles after the `Nmain` main cycles, the main length being a whole
number of `K`-row periods): `m_drain` cycles through `0 .. Tv-1`. -/
lemma drainTraj_drain (K L Tv nT : Nat) (hK : 1 ≤ K) (hT : 1 ≤ Tv) (d : Nat) :
    drainTraj K L Tv (nT * (K * (L + Tv))) (nT * (K * (L + Tv)) + d) =
      ((d / Tv) % K, d % Tv) := by
  induction d with
  | zero =>
    rw [Nat.add_zero,
      drainTraj_main K L Tv _ hK hT _ (Nat.le_refl _)]
    have h1 : nT * (K * (L + Tv)) = (nT * K) * (L + Tv) := by ring
    rw [h1, Nat.mul_div_cancel _ (by omega : 0 < L + Tv), Nat.mul_mod_left,
      Nat.mul_mod_left]
    simp
  | succ d ih =>
    rw [show nT * (K * (L + Tv)) + (d + 1) = (nT * (K * (L + Tv)) + d) + 1
        from rfl,
      drainTraj, decide_eq_true (by omega : nT * (K * (L + Tv)) ≤
        nT * (K * (L + Tv)) + d), ih]
    show wrapAdvance K Tv _ = _
    exact wrapAdvance_closed K Tv d hK hT

/-- Helper: at any reachable counter state, one update either increments
`m_drain` by one, or wraps `m_drain` to zero while `k_drain` increments or
wraps from `K - 1` to zero. -/
lemma wrapAdvance_action (K a : Nat) (s : Nat × Nat) (hs : s.1 ≤ K - 1) :
    (wrapAdvance K a s = (s.1, s.2 + 1)) ∨
    (wrapAdvance K a s).2 = 0 ∧
      ((wrapAdvance K a s).1 = s.1 + 1 ∨
        (s.1 = K - 1 ∧ (wrapAdvance K a s).1 = 0)) := by
  unfold wrapAdvance
  by_cases hend : a - 1 ≤ s.2
  · rw [if_pos hend]
    by_cases hw : K - 1 ≤ s.1
    · right
      rw [if_pos hw]
      exact ⟨rfl, Or.inr ⟨by omega, rfl⟩⟩
    · right
      rw [if_neg hw]
      exact ⟨rfl, Or.inl rfl⟩
  · left
    rw [if_neg hend]

/-- C10.  At every cycle `c` of a pipeline whose main phase is a whole number
`nT` of tiles of `K * (L + Tv)` cycles, the trailing counters satisfy
`k_drain ≤ K - 1`; `m_drain ≤ L + Tv - 1` outside the terminal drain phase
and `m_drain ≤ Tv - 1` inside it; and the step to cycle `c + 1` performs
exactly one of the two actions: `m_drain` increments with `k_drain`
unchanged, or `m_drain` wraps to zero while `k_drain` increments or wraps
from `K - 1` to zero (the two branches exclude each other since an
incremented `m_drain` is positive). -/
theorem drainCounters_invariant (K L Tv nT c : Nat) (hK : 1 ≤ K)
    (hT : 1 ≤ Tv) :
    (drainTraj K L Tv (nT * (K * (L + Tv))) c).1 ≤ K - 1 ∧
    (c < nT * (K * (L + Tv)) →
      (drainTraj K L Tv (nT * (K * (L + Tv))) c).2 ≤ L + Tv - 1) ∧
    (nT * (K * (L + Tv)) ≤ c →
      (drainTraj K L Tv (nT * (K * (L + Tv))) c).2 ≤ Tv - 1) ∧
    ((drainTraj K L Tv (nT * (K * (L + Tv))) (c + 1) =
        ((drainTraj K L Tv (nT * (K * (L + Tv))) c).1,
          (drainTraj K L Tv (nT * (K * (L + Tv))) c).2 + 1)) ∨
      (drainTraj K L Tv (nT * (K * (L + Tv))) (c + 1)).2 = 0 ∧
        ((drainTraj K L Tv (nT * (K * (L + Tv))) (c + 1)).1 =
            (drainTraj K L Tv (nT * (K * (L + Tv))) c).1 + 1 ∨
          ((drainTraj K L Tv (nT * (K * (L + Tv))) c).1 = K - 1 ∧
            (drainTraj K L Tv (nT * (K * (L + Tv))) (c + 1)).1 = 0))) := by
  have hbound : (drainTraj K L Tv (nT * (K * (L + Tv))) c).1 ≤ K - 1 := by
    rcases Nat.lt_or_ge c (nT * (K * (L + Tv)) + 1) with hc | hc
    · rw [drainTraj_main K L Tv _ hK hT c (by omega)]
      have := Nat.mod_lt (c / (L + Tv)) hK
      omega
    · obtain ⟨d, rfl⟩ := Nat.exists_eq_add_of_le
        (by omega : nT * (K * (L + Tv)) ≤ c)
      rw [drainTraj_drain K L Tv nT hK hT d]
      have := Nat.mod_lt (d / Tv) hK
      omega
  refine ⟨hbound, fun hc => ?_, fun hc => ?_, ?_⟩
  · rw [drainTraj_main K L Tv _ hK hT c (by omega)]
    have := Nat.mod_lt c (by omega : 0 < L + Tv)
    omega
  · obtain ⟨d, rfl⟩ := Nat.exists_eq_add_of_le hc
    rw [drainTraj_drain K L Tv nT hK hT d]
    have := Nat.mod_lt d (by omega : 0 < Tv)
    omega
  · rw [show drainTraj K L Tv (nT * (K * (L + Tv))) (c + 1) =
        drainStep K L Tv (decide (nT * (K * (L + Tv)) ≤ c))
          (drainTraj K L Tv (nT * (K * (L + Tv))) c) from rfl]
    unfold drainStep
    by_cases hphase : nT * (K * (L + Tv)) ≤ c
    · rw [decide_eq_true hphase, if_pos rfl]
      have h := wrapAdvance_action K Tv
        (drainTraj K L Tv (nT * (K * (L + Tv))) c) hbound
      rcases h with h | h
      · left
        rw [h]
      · right
        exact h
    · rw [decide_eq_false hphase, if_neg (by simp : ¬ (false = true))]
      have h := wrapAdvance_action K (L + Tv)
        (drainTraj K L Tv (nT * (K * (L + Tv))) c) hbound
      rcases h with h | h
      · left
        rw [h]
      · right
        exact h

/-- C10 witness at `K = 2, L = 1, Tv = 2`, one tile (`Nmain = 6`), cycle 3
(main phase): the counter bounds and the step disjunction at that cycle. -/
theorem drainCounters_invariant_witness :
    (drainTraj 2 1 2 (1 * (2 * (1 + 2))) 3).1 ≤ 2 - 1 ∧
    (drainTraj 2 1 2 (1 * (2 * (1 + 2))) 3).2 ≤ 1 + 2 - 1 ∧
    ((drainTraj 2 1 2 (1 * (2 * (1 + 2))) (3 + 1) =
        ((drainTraj 2 1 2 (1 * (2 * (1 + 2))) 3).1,
          (drainTraj 2 1 2 (1 * (2 * (1 + 2))) 3).2 + 1)) ∨
      (drainTraj 2 1 2 (1 * (2 * (1 + 2))) (3 + 1)).2 = 0 ∧
        ((drainTraj 2 1 2 (1 * (2 * (1 + 2))) (3 + 1)).1 =
            (drainTraj 2 1 2 (1 * (2 * (1 + 2))) 3).1 + 1 ∨
          ((drainTraj 2 1 2 (1 * (2 * (1 + 2))) 3).1 = 2 - 1 ∧
            (drainTraj 2 1 2 (1 * (2 * (1 + 2))) (3 + 1)).1 = 0))) :=
  ⟨(drainCounters_invariant 2 1 2 1 3 (by decide) (by decide)).1,
    (drainCounters_invariant 2 1 2 1 3 (by decide) (by decide)).2.1 (by decide),
    (drainCounters_invariant 2 1 2 1 3 (by decide) (by decide)).2.2.2⟩

end FpgaSystolic
